import Mathlib

/-!
# Verification of the fontloading resolution engine

Shallow embedding of the font-resolution core of the `fontfind` repository:
cache-key normalization (`fontregistry/registry.go`), the registry
(`StoreTypeface` / `Typeface` / `FallbackTypeface`), the provider-chain search
(`locate/resolve.go`, `searchScalableFont`), the confidence-based matching
paths (`locate/googlefont`, `locate/systemfont/fc.go`) and the packaged
fallback provider (`locate/fallbackfont/fallback.go`).

Go strings are modelled as lists of characters (`GoString`); the claims under
study only involve ASCII data, so `strings.ToLower` is modelled as ASCII
lower-casing and `strings.TrimSpace` trims the ASCII whitespace characters.
Cancellation (`context.Context`) is modelled as an oracle answering the n-th
`ctx.Err()` poll.  Effectful calls of the code are made explicit: the search
returns, besides font and error, the final registry and the list of provider
indices that were invoked, in invocation order.
-/

namespace Fontfind

/-- A Go string, modelled as its list of characters. -/
abbrev GoString := List Char

/-- Conversion from a Lean string literal to the embedded string type. -/
def gs (s : String) : GoString := s.data

/-- The ASCII uppercase letters with their lowercase counterparts. -/
def upperLower : List (Char × Char) :=
  [('A', 'a'), ('B', 'b'), ('C', 'c'), ('D', 'd'), ('E', 'e'), ('F', 'f'),
   ('G', 'g'), ('H', 'h'), ('I', 'i'), ('J', 'j'), ('K', 'k'), ('L', 'l'),
   ('M', 'm'), ('N', 'n'), ('O', 'o'), ('P', 'p'), ('Q', 'q'), ('R', 'r'),
   ('S', 's'), ('T', 't'), ('U', 'u'), ('V', 'v'), ('W', 'w'), ('X', 'x'),
   ('Y', 'y'), ('Z', 'z')]

/-- ASCII lower-casing of a single character, as done per rune by
`strings.ToLower` on the ASCII data the claims are about: uppercase letters
map to their lowercase counterpart, every other character is unchanged. -/
def asciiLower (c : Char) : Char :=
  match upperLower.lookup c with
  | some l => l
  | none => c

/-- ASCII whitespace recognized when modelling `strings.TrimSpace`. -/
def isSpaceChar (c : Char) : Bool :=
  c = ' ' || c = '\t' || c = '\n' || c = '\r'

/-- `strings.TrimSpace`: drop whitespace from both ends. -/
def trimSpace (l : GoString) : GoString :=
  ((l.dropWhile isSpaceChar).reverse.dropWhile isSpaceChar).reverse

/-- `strings.ReplaceAll(fname, " ", "_")`. -/
def replaceSpaces (l : GoString) : GoString :=
  l.map fun c => if c = ' ' then '_' else c

/-- `strings.ToLower` on ASCII data. -/
def toLowerStr (l : GoString) : GoString := l.map asciiLower

/-- `strings.LastIndex(l, c)` for a single-character needle: the index of the
last occurrence of `c`, or `-1` if absent. -/
def lastIdx (l : GoString) (c : Char) : Int :=
  match l with
  | [] => -1
  | a :: rest =>
      let r := lastIdx rest c
      if r ≥ 0 then r + 1 else if a = c then 0 else -1

/-- The style enumeration of `golang.org/x/image/font.Style`. -/
inductive FontStyle where
  | Normal
  | Italic
  | Oblique
deriving DecidableEq

/-- `golang.org/x/image/font.Weight` is an `int`; the named constants below
mirror the Go package. -/
abbrev FontWeight := Int

def WeightThin : FontWeight := -3
def WeightExtraLight : FontWeight := -2
def WeightLight : FontWeight := -1
def WeightNormal : FontWeight := 0
def WeightMedium : FontWeight := 1
def WeightSemiBold : FontWeight := 2
def WeightBold : FontWeight := 3
def WeightExtraBold : FontWeight := 4
def WeightBlack : FontWeight := 5

/-- `fontregistry.NormalizeFontname` (fontregistry/registry.go:124-142):
trim whitespace, replace blanks by underscores, cut a trailing
dot-suffix when the last dot sits at a positive index, lower-case, then
append the style and weight qualifiers. -/
def NormalizeFontname (fname : GoString) (style : FontStyle) (weight : FontWeight) :
    GoString :=
  let f1 := trimSpace fname
  let f2 := replaceSpaces f1
  let f3 := if lastIdx f2 '.' > 0 then f2.take (lastIdx f2 '.').toNat else f2
  let f4 := toLowerStr f3
  let f5 :=
    match style with
    | .Italic | .Oblique => f4 ++ gs "-italic"
    | .Normal => f4
  let f6 :=
    if weight = WeightLight ∨ weight = WeightExtraLight then f5 ++ gs "-light"
    else if weight = WeightBold ∨ weight = WeightExtraBold ∨ weight = WeightSemiBold then
      f5 ++ gs "-bold"
    else f5
  f6

/-- `fontfind.ScalableFont` (font.go): the resolved-font value with the fields
the resolution core reads.  The byte-source handle (`fs.FS`) is identified by
its path; claims under study never read font bytes. -/
structure ScalableFont where
  Name : GoString
  Style : FontStyle
  Weight : FontWeight
  Path : GoString
deriving DecidableEq

/-- `fontfind.NullFont`: the zero value of `ScalableFont`. -/
def NullFont : ScalableFont :=
  { Name := [], Style := .Normal, Weight := WeightNormal, Path := [] }

/-- `fontfind.Descriptor` (font.go:70-74). -/
structure Descriptor where
  Pattern : GoString
  Style : FontStyle
  Weight : FontWeight

/-- The error values the embedded code can produce. -/
inductive GoErr where
  /-- `context.Canceled`. -/
  | canceled
  /-- `context.DeadlineExceeded`. -/
  | deadlineExceeded
  /-- registry miss error of `Registry.Typeface` (registry.go:78). -/
  | registryMiss (key : GoString)
  /-- `locate.notFound` (resolve.go:12-14). -/
  | notFound (key : GoString)
  /-- a provider-specific failure. -/
  | providerFailure (msg : GoString)
  /-- `errors.New("no Google font matches pattern")` (googlefont). -/
  | noMatch
  /-- `"no suitable variant"` error of `findGoogleFont`, carrying the
  winning confidence. -/
  | noSuitableVariant (confidence : Nat)
  /-- failure of the Google font download/cache step. -/
  | cacheFailure
  /-- a plain `errors.New` message, e.g. `"font not found"` in
  fallback.go. -/
  | plain (msg : GoString)
deriving DecidableEq

/-! ## Registry (fontregistry/registry.go) -/

/-- The registry's map from normalized names to fonts, as an insert-only
association list (Go map keys stay unique because insertion happens only on
absence). -/
abbrev Registry := List (GoString × ScalableFont)

/-- Map lookup. -/
def lookupReg (r : Registry) (k : GoString) : Option ScalableFont :=
  match r with
  | [] => none
  | (k2, f) :: rest => if k2 = k then some f else lookupReg rest k

/-- `Registry.StoreTypeface` (registry.go:46-59): reject a font with empty
name or path, otherwise insert only when the key is absent. -/
def StoreTypeface (r : Registry) (k : GoString) (f : ScalableFont) : Registry :=
  if f.Name = [] ∨ f.Path = [] then r
  else
    match lookupReg r k with
    | some _ => r
    | none => (k, f) :: r

/-- The reserved registry key of the fallback font (registry.go:40). -/
def fallbackKey : GoString := gs "fallback"

/-- Modelled from the spec: `fallbackfont.Default()` returns the packaged
`Go-Regular.otf`.  The font file is embedded in the binary via `go:embed`
(the packaged directory of `locate/fallbackfont` is part of the repository
but not under `src/`), so the load cannot fail and `Default` is total. -/
def fallbackDefault : ScalableFont :=
  { Name := gs "Go-Regular.otf"
    Style := .Normal
    Weight := WeightNormal
    Path := gs "packaged/Go-Regular.otf" }

/-- `Registry.FallbackTypeface` (registry.go:88-109): return the cached
fallback when present, otherwise load the packaged default and cache it under
`fallbackKey`.  The load-failure branch of the Go code is unreachable because
the default font is embedded (see `fallbackDefault`). -/
def FallbackTypeface (r : Registry) : ScalableFont × Registry :=
  match lookupReg r fallbackKey with
  | some t => (t, r)
  | none => (fallbackDefault, (fallbackKey, fallbackDefault) :: r)

/-- `Registry.Typeface` (registry.go:67-84), the spec's
`resolveOrFallback(key)`: on a hit return the cached font with no error; on a
miss return the fallback font together with a miss error.  `resolve.go` calls
this operation under the name `GetFont` (that wrapper is repository code not
under `src/`; modelled from the spec's `resolveOrFallback` contract, which is
exactly the contract of `Registry.Typeface`). -/
def Typeface (r : Registry) (k : GoString) : ScalableFont × Option GoErr × Registry :=
  match lookupReg r k with
  | some t => (t, none, r)
  | none =>
      let fr := FallbackTypeface r
      (fr.1, some (.registryMiss k), fr.2)

/-- Registry well-formedness: every stored font has a nonempty name.
Preserved by `StoreTypeface` and `FallbackTypeface`; used to rule out the
Null Font as a cached or fallback value. -/
def validReg (r : Registry) : Prop := ∀ kf ∈ r, (Prod.snd kf).Name ≠ []

/-! ## Provider-chain search (locate/resolve.go) -/

/-- The two error values a `context.Context` can report. -/
inductive CancelReason where
  | canceled
  | deadlineExceeded
deriving DecidableEq

/-- The `error` value carried by a fired context. -/
def CancelReason.toErr : CancelReason → GoErr
  | .canceled => .canceled
  | .deadlineExceeded => .deadlineExceeded

/-- The cancellation signal: the answer of the n-th `ctx.Err()` poll. -/
abbrev Ctx := Nat → Option CancelReason

/-- A provider (`locate.FontLocatorWithContext`), with its effect on the
search made pure: given the descriptor it either yields a font or fails. -/
abbrev Provider := Descriptor → Except GoErr ScalableFont

/-- The observable outcome of `searchScalableFont`: the `fontPlusErr` result,
the final registry, and the indices of the providers invoked, in order. -/
structure SearchResult where
  font : ScalableFont
  err : Option GoErr
  reg : Registry
  calls : List Nat
deriving DecidableEq

/-- The provider loop of `searchScalableFont` (resolve.go:122-140): check
cancellation before each provider; on success store the font and return it;
on failure re-check cancellation and advance; when all providers are
exhausted return the fallback font together with a not-found error.
`idx` is the index of the next provider, `poll` the index of the next
`ctx.Err()` poll. -/
def searchLoop (ctx : Ctx) (desc : Descriptor) (name : GoString)
    (rs : List Provider) (idx poll : Nat) (reg : Registry) : SearchResult :=
  match rs with
  | [] =>
      let fr := FallbackTypeface reg
      { font := fr.1, err := some (.notFound name), reg := fr.2, calls := [] }
  | r :: rest =>
      match ctx poll with
      | some e => { font := NullFont, err := some e.toErr, reg := reg, calls := [] }
      | none =>
          match r desc with
          | .ok f =>
              { font := f, err := none, reg := StoreTypeface reg name f, calls := [idx] }
          | .error _ =>
              match ctx (poll + 1) with
              | some e => { font := NullFont, err := some e.toErr, reg := reg, calls := [idx] }
              | none =>
                  let res := searchLoop ctx desc name rest (idx + 1) (poll + 2) reg
                  { res with calls := idx :: res.calls }

/-- `searchScalableFont` (resolve.go:112-141): fail at once when already
cancelled; normalize the descriptor; return a cache hit directly; otherwise
run the provider chain. -/
def searchScalableFont (ctx : Ctx) (desc : Descriptor) (rs : List Provider)
    (reg : Registry) : SearchResult :=
  match ctx 0 with
  | some e => { font := NullFont, err := some e.toErr, reg := reg, calls := [] }
  | none =>
      match Typeface reg (NormalizeFontname desc.Pattern desc.Style desc.Weight) with
      | (t, none, reg1) => { font := t, err := none, reg := reg1, calls := [] }
      | (_, some _, reg1) =>
          searchLoop ctx desc (NormalizeFontname desc.Pattern desc.Style desc.Weight)
            rs 0 1 reg1

/-- The normalized registry key of a descriptor (resolve.go:117). -/
def normOf (d : Descriptor) : GoString :=
  NormalizeFontname d.Pattern d.Style d.Weight

/-! ## Matching (match.go is repository code not under src/) -/

/-- Does `l` start with `p`? -/
def startsWith (l p : GoString) : Bool :=
  match p, l with
  | [], _ => true
  | _ :: _, [] => false
  | a :: p2, b :: l2 => a = b && startsWith l2 p2

/-- Is `needle` a contiguous substring of `hay` (`strings.Contains`)? -/
def hasSub (hay needle : GoString) : Bool :=
  match hay with
  | [] => needle.isEmpty
  | _ :: rest => startsWith hay needle || hasSub rest needle

/-- Modelled from the spec: the confidence scale of match.go, an ordered
numeric type with the four levels `None < Low < High < Perfect` (§3). -/
abbrev MatchConfidence := Nat

def NoConfidence : MatchConfidence := 0
def LowConfidence : MatchConfidence := 1
def HighConfidence : MatchConfidence := 2
def PerfectConfidence : MatchConfidence := 3

/-- Modelled from the spec: `fontfind.MatchStyle` of the absent match.go.
Heuristic sub-score of a variant label against the requested style via the
substring checks of §4.1 (`italic` / `oblique`; absence of qualifiers is an
exact match for the Normal style). -/
def MatchStyle (v : GoString) (s : FontStyle) : MatchConfidence :=
  let lv := toLowerStr v
  let hasIt := hasSub lv (gs "italic")
  let hasOb := hasSub lv (gs "oblique")
  match s with
  | .Normal => if hasIt || hasOb then NoConfidence else PerfectConfidence
  | .Italic =>
      if hasIt then PerfectConfidence
      else if hasOb then HighConfidence else NoConfidence
  | .Oblique =>
      if hasOb then PerfectConfidence
      else if hasIt then HighConfidence else NoConfidence

/-- Modelled from the spec: `fontfind.MatchWeight` of the absent match.go.
Heuristic sub-score of a variant label against the requested weight via the
substring checks of §4.1 (`light` / `bold` / `black` / `semibold`; absence of
qualifiers or `regular` / `normal` is an exact match for the Normal weight;
a nearby weight scores between exact match and mismatch, so that of two
variants the numerically closer one wins deterministically, §8). -/
def MatchWeight (v : GoString) (w : FontWeight) : MatchConfidence :=
  let lv := toLowerStr v
  let hasSemi := hasSub lv (gs "semibold")
  let hasBoldQ := hasSub lv (gs "bold")
  let hasLightQ := hasSub lv (gs "light")
  let hasBlackQ := hasSub lv (gs "black")
  let hasReg := hasSub lv (gs "regular") || hasSub lv (gs "normal")
  let hasW := hasSemi || hasBoldQ || hasLightQ || hasBlackQ
  if w = WeightNormal ∨ w = WeightMedium then
    if hasReg then PerfectConfidence
    else if !hasW then PerfectConfidence
    else if hasLightQ || hasSemi then LowConfidence
    else NoConfidence
  else if w = WeightLight ∨ w = WeightExtraLight ∨ w = WeightThin then
    if hasLightQ then PerfectConfidence
    else if hasReg || !hasW then LowConfidence
    else NoConfidence
  else if w = WeightSemiBold then
    if hasSemi then PerfectConfidence
    else if hasBoldQ then HighConfidence
    else NoConfidence
  else if w = WeightBold ∨ w = WeightExtraBold then
    if hasSemi then HighConfidence
    else if hasBoldQ then PerfectConfidence
    else if hasBlackQ then HighConfidence
    else NoConfidence
  else if w = WeightBlack then
    if hasBlackQ then PerfectConfidence
    else if hasBoldQ then HighConfidence
    else NoConfidence
  else NoConfidence

/-- The combined confidence of one variant label: the average of the style
and weight sub-scores, truncated by integer division. -/
def combinedConf (s : FontStyle) (w : FontWeight) (v : GoString) : MatchConfidence :=
  (MatchStyle v s + MatchWeight v w) / 2

/-- The accumulator loop of `selectVariant` (googlefont, src/unnamed/part_001
lines 135-146): Go named return values start at their zero values, and a
variant replaces the current best only on a strictly larger combined
confidence. -/
def selectVariantAux (vs : List GoString) (s : FontStyle) (w : FontWeight)
    (bestV : GoString) (bestC : MatchConfidence) : GoString × MatchConfidence :=
  match vs with
  | [] => (bestV, bestC)
  | v :: rest =>
      let c := combinedConf s w v
      if c > bestC then selectVariantAux rest s w v c
      else selectVariantAux rest s w bestV bestC

/-- `selectVariant` (src/unnamed/part_001:135-146). -/
def selectVariant (vs : List GoString) (s : FontStyle) (w : FontWeight) :
    GoString × MatchConfidence :=
  selectVariantAux vs s w [] 0

/-- The highest combined confidence over a variant list (0 when empty). -/
def maxConf (vs : List GoString) (s : FontStyle) (w : FontWeight) : MatchConfidence :=
  vs.foldr (fun v m => max (combinedConf s w v) m) 0

/-- The first variant of `vs` whose combined confidence equals `m`
(empty string when none does). -/
def firstWith (vs : List GoString) (s : FontStyle) (w : FontWeight)
    (m : MatchConfidence) : GoString :=
  ((vs.find? fun v => combinedConf s w v == m).getD [])

/-- `fontfind.FontVariantsLocation` (spec §3: candidate/variant location). -/
structure FontVariantsLocation where
  Family : GoString
  Path : GoString
  Variants : List GoString
deriving DecidableEq

/-- The zero value `fontfind.FontVariantsLocation{}`. -/
def emptyLocation : FontVariantsLocation := { Family := [], Path := [], Variants := [] }

/-- Modelled from the spec: the case-insensitive regular-expression
containment match of family names against the request pattern (§4.1),
modelled as literal substring containment (all patterns appearing in the
claims are literal). -/
def patternMatches (pattern family : GoString) : Bool :=
  hasSub (toLowerStr family) (toLowerStr pattern)

/-- The per-family scan of `ClosestMatch`: fold the variants of `d` over the
current best, replacing it only on a strictly larger combined confidence. -/
def cmVariants (d : FontVariantsLocation) (vs : List GoString) (s : FontStyle)
    (w : FontWeight) (best : FontVariantsLocation × GoString × MatchConfidence) :
    FontVariantsLocation × GoString × MatchConfidence :=
  match vs with
  | [] => best
  | v :: rest =>
      let c := combinedConf s w v
      if c > best.2.2 then cmVariants d rest s w (d, v, c)
      else cmVariants d rest s w best

/-- The family scan of `ClosestMatch`: families whose name does not match the
pattern are skipped (a family with zero variants contributes nothing). -/
def closestMatchAux (ds : List FontVariantsLocation) (pattern : GoString)
    (s : FontStyle) (w : FontWeight)
    (best : FontVariantsLocation × GoString × MatchConfidence) :
    FontVariantsLocation × GoString × MatchConfidence :=
  match ds with
  | [] => best
  | d :: rest =>
      if patternMatches pattern d.Family then
        closestMatchAux rest pattern s w (cmVariants d d.Variants s w best)
      else closestMatchAux rest pattern s w best

/-- Modelled from the spec: `fontfind.ClosestMatch` of the absent match.go
(§4.1): across all families whose name matches the pattern and across their
variants, select the strictly highest combined confidence, first seen wins. -/
def ClosestMatch (ds : List FontVariantsLocation) (pattern : GoString)
    (s : FontStyle) (w : FontWeight) :
    FontVariantsLocation × GoString × MatchConfidence :=
  closestMatchAux ds pattern s w (emptyLocation, [], 0)

/-! ## fontconfig path (locate/systemfont/fc.go) -/

/-- `findFontConfigFont` (fc.go:123-140), with the lazily loaded global
descriptor list and its load-success flag passed explicitly: when loading
failed return zero values; otherwise accept the closest match only when its
confidence is strictly greater than `LowConfidence`. -/
def findFontConfigFont (descriptors : List FontVariantsLocation) (ok : Bool)
    (pattern : GoString) (s : FontStyle) (w : FontWeight) :
    FontVariantsLocation × GoString :=
  if !ok then (emptyLocation, [])
  else if (ClosestMatch descriptors pattern s w).2.2 > LowConfidence then
    ((ClosestMatch descriptors pattern s w).1,
      (ClosestMatch descriptors pattern s w).2.1)
  else (emptyLocation, [])

/-! ## Google-font path (locate/googlefont, src/unnamed/part_001) -/

/-- `googlefont.GoogleFontInfo`: a directory entry of the Google font
service, with its family name, variant labels and per-variant file URLs. -/
structure GoogleFontInfo where
  Family : GoString
  Variants : List GoString
  Files : List (GoString × GoString)
deriving DecidableEq

/-- The embedded `fontfind.FontVariantsLocation` of a directory entry. -/
def GoogleFontInfo.toLoc (fi : GoogleFontInfo) : FontVariantsLocation :=
  { Family := fi.Family, Path := [], Variants := fi.Variants }

/-- `matchGoogleFontInfo` (src/unnamed/part_001:161-189) with the downloaded
directory passed explicitly: scan the items for the first whose family name
matches the pattern and whose closest-match confidence is strictly greater
than `LowConfidence`; error when none qualifies.  The invalid-regex failure
branch is not modelled (patterns of the claims are literal). -/
def matchGoogleFontInfo (dir : List GoogleFontInfo) (pattern : GoString)
    (s : FontStyle) (w : FontWeight) : Except GoErr (List GoogleFontInfo) :=
  match dir.find? (fun fi =>
      patternMatches pattern fi.Family &&
        (ClosestMatch [fi.toLoc] pattern s w).2.2 > LowConfidence) with
  | some fi => .ok [fi]
  | none => .error .noMatch

/-- `findGoogleFont` (src/unnamed/part_001:106-133).  `cache` is the outcome
of the effectful `cacheGoogleFont` download/cache step, yielding the cache
directory and file name on success. -/
def findGoogleFont (dir : List GoogleFontInfo)
    (cache : GoogleFontInfo → GoString → Except GoErr (GoString × GoString))
    (pattern : GoString) (s : FontStyle) (w : FontWeight) :
    Except GoErr ScalableFont :=
  match matchGoogleFontInfo dir pattern s w with
  | .error e => .error e
  | .ok [] => .error .noMatch
  | .ok (fi :: _) =>
      if (selectVariant fi.Variants s w).2 < LowConfidence then
        .error (.noSuitableVariant (selectVariant fi.Variants s w).2)
      else
        match cache fi (selectVariant fi.Variants s w).1 with
        | .error e => .error e
        | .ok cr =>
            .ok { Name := cr.2, Style := s, Weight := w, Path := cr.2 }

/-! ## Packaged fallback provider (locate/fallbackfont/fallback.go) -/

/-- One entry of the embedded `packaged` directory listing. -/
structure DirEntry where
  name : GoString
  isDir : Bool
deriving DecidableEq

/-- Modelled from the spec: `fontfind.Matches` of the absent match.go, the
filename-against-request match used by `FindFallbackFont`: case-insensitive
containment of the pattern in the filename plus agreement of the style and
weight guessed from the filename qualifiers (§4.1 and the fontregistry
tests). -/
def Matches (fname pattern : GoString) (s : FontStyle) (w : FontWeight) : Bool :=
  let lf := toLowerStr fname
  let gStyle : FontStyle := if hasSub lf (gs "italic") then .Italic else .Normal
  let gWeight : FontWeight :=
    if hasSub lf (gs "bold") then WeightBold
    else if hasSub lf (gs "light") then WeightLight
    else if hasSub lf (gs "black") then WeightBlack
    else WeightNormal
  hasSub lf (toLowerStr pattern) && decide (gStyle = s) && decide (gWeight = w)

/-- The filename-selection loop of `FindFallbackFont` (fallback.go:50-60):
directories are skipped; a matching file is taken and the loop breaks;
otherwise `fname` is overwritten with every non-directory entry seen, so
with no match it ends as the last-listed file. -/
def fallbackScan (fonts : List DirEntry) (pattern : GoString) (s : FontStyle)
    (w : FontWeight) (fname : GoString) : GoString :=
  match fonts with
  | [] => fname
  | f :: rest =>
      if f.isDir then fallbackScan rest pattern s w fname
      else if Matches f.name pattern s w then f.name
      else fallbackScan rest pattern s w f.name

/-- `FindFallbackFont` (fallback.go:47-72), with the embedded `packaged`
directory listing passed explicitly: when the selection loop found no
filename, fail with `"font not found"`; otherwise return the packaged file
with the requested style and weight stamped on it. -/
def FindFallbackFont (fonts : List DirEntry) (pattern : GoString)
    (s : FontStyle) (w : FontWeight) : Except GoErr ScalableFont :=
  let fname := fallbackScan fonts pattern s w []
  if fname = [] then .error (.plain (gs "font not found"))
  else .ok { Name := fname, Style := s, Weight := w, Path := gs "packaged/" ++ fname }

/-- The last-listed plain file of a directory listing. -/
def lastFile (fonts : List DirEntry) : Option DirEntry :=
  match fonts with
  | [] => none
  | f :: rest =>
      if f.isDir then lastFile rest
      else
        match lastFile rest with
        | some e => some e
        | none => some f

/-- Character-wise ASCII case-equivalence of two strings. -/
def lowerEq (a b : GoString) : Prop := a.map asciiLower = b.map asciiLower

instance (a b : GoString) : Decidable (lowerEq a b) := by
  unfold lowerEq; infer_instance

/-! ## Concrete sample data used by witnesses and counterexamples -/

/-- A never-firing cancellation signal. -/
def ctxNone : Ctx := fun _ => none

/-- A signal that has already fired with explicit cancellation. -/
def ctxCancelled : Ctx := fun _ => some .canceled

/-- A sample descriptor. -/
def descArial : Descriptor :=
  { Pattern := gs "Arial", Style := .Normal, Weight := WeightNormal }

/-- A provider that always fails. -/
def pFail : Provider := fun _ => .error (.providerFailure (gs "boom"))

/-- A provider that reports success but hands back the Null Font. -/
def pNull : Provider := fun _ => .ok NullFont

/-- A valid sample font. -/
def fontA : ScalableFont :=
  { Name := gs "A.ttf", Style := .Normal, Weight := WeightNormal, Path := gs "p/A.ttf" }

/-- A provider that succeeds with `fontA`. -/
def pOk : Provider := fun _ => .ok fontA

/-- A sample fontconfig family whose only variant is `italic`. -/
def fcLocItalic : FontVariantsLocation :=
  { Family := gs "Foo"
    Path := gs "/foo"
    Variants := [gs "italic"] }

/-- A sample fontconfig family whose only variant is `regular`. -/
def fcLocRegular : FontVariantsLocation :=
  { Family := gs "Foo"
    Path := gs "/foo"
    Variants := [gs "regular"] }

/-- A sample packaged directory entry. -/
def dirGoBold : DirEntry :=
  { name := gs "Go-Bold.otf", isDir := false }

/-- A sample packaged directory entry. -/
def dirGoRegular : DirEntry :=
  { name := gs "Go-Regular.otf", isDir := false }

/-! ## Theorems -/

/-- C3: if the cancellation signal has already fired when `searchScalableFont`
starts, the result is the Null Font paired with the cancellation error, no
provider is invoked and the registry is unchanged (resolve.go:113-116). -/
theorem searchScalableFont_cancelled_before_start
    (ctx : Ctx) (desc : Descriptor) (rs : List Provider) (reg : Registry)
    (e : CancelReason) (h : ctx 0 = some e) :
    searchScalableFont ctx desc rs reg =
      { font := NullFont, err := some e.toErr, reg := reg, calls := [] } := by
  unfold searchScalableFont
  rw [h]

/-- Witness for C3 at a concrete already-cancelled signal. -/
theorem searchScalableFont_cancelled_before_start_witness :
    ctxCancelled 0 = some CancelReason.canceled ∧
    searchScalableFont ctxCancelled descArial [pFail, pOk] [] =
      { font := NullFont, err := some GoErr.canceled, reg := [], calls := [] } :=
  ⟨rfl, searchScalableFont_cancelled_before_start ctxCancelled descArial
    [pFail, pOk] [] .canceled rfl⟩

/-- C4: `StoreTypeface` is a no-op (raising no error) on the Null Font and on
any font with an empty name, never overwrites a key that is already present
(the first insertion is retained), and inserts the font exactly when the key
is absent and the font is structurally valid (registry.go:46-59). -/
theorem StoreTypeface_spec (reg : Registry) (k : GoString) (f : ScalableFont) :
    (f = NullFont → StoreTypeface reg k f = reg) ∧
    (f.Name = [] → StoreTypeface reg k f = reg) ∧
    ((lookupReg reg k).isSome → StoreTypeface reg k f = reg) ∧
    (lookupReg reg k = none → f.Name ≠ [] → f.Path ≠ [] →
      lookupReg (StoreTypeface reg k f) k = some f ∧
      ∀ k2, k2 ≠ k → lookupReg (StoreTypeface reg k f) k2 = lookupReg reg k2) := by
  refine ⟨?_, ?_, ?_, ?_⟩
  · intro hf
    subst hf
    simp [StoreTypeface, NullFont]
  · intro hf
    simp [StoreTypeface, hf]
  · intro hk
    unfold StoreTypeface
    split
    · rfl
    · match hl : lookupReg reg k with
      | some _ => simp [hl]
      | none => rw [hl] at hk; simp at hk
  · intro hk hn hp
    unfold StoreTypeface
    rw [if_neg (by simp [hn, hp]), hk]
    constructor
    · simp [lookupReg]
    · intro k2 hne
      simp only [lookupReg]
      rw [if_neg (fun h => hne h.symm)]

/-- Witness for C4: storing the Null Font is a no-op, and a valid font is
stored under an absent key. -/
theorem StoreTypeface_spec_witness :
    StoreTypeface [] (gs "arial") NullFont = [] ∧
    lookupReg (StoreTypeface [] (gs "arial") fontA) (gs "arial") = some fontA :=
  ⟨(StoreTypeface_spec [] (gs "arial") NullFont).1 rfl,
    ((StoreTypeface_spec [] (gs "arial") fontA).2.2.2 rfl
      (by decide) (by decide)).1⟩

/-! ### Registry helper lemmas -/

theorem lookupReg_mem {r : Registry} {k : GoString} {f : ScalableFont}
    (h : lookupReg r k = some f) : (k, f) ∈ r := by
  induction r with
  | nil => simp [lookupReg] at h
  | cons kf rest ih =>
    obtain ⟨k2, f2⟩ := kf
    simp only [lookupReg] at h
    by_cases hk : k2 = k
    · rw [if_pos hk] at h
      subst hk
      injection h with h
      subst h
      exact List.mem_cons_self _ _
    · rw [if_neg hk] at h
      exact List.mem_cons_of_mem _ (ih h)

theorem lookup_fallback_cached (r : Registry) :
    lookupReg (FallbackTypeface r).2 fallbackKey = some (FallbackTypeface r).1 := by
  unfold FallbackTypeface
  match h : lookupReg r fallbackKey with
  | some t => simp [h]
  | none => simp [h, lookupReg]

theorem FallbackTypeface_idem (r : Registry) :
    FallbackTypeface (FallbackTypeface r).2 =
      ((FallbackTypeface r).1, (FallbackTypeface r).2) := by
  cases h : lookupReg r fallbackKey with
  | none =>
    have h1 : FallbackTypeface r = (fallbackDefault, (fallbackKey, fallbackDefault) :: r) := by
      unfold FallbackTypeface
      rw [h]
    rw [h1]
    unfold FallbackTypeface
    simp [lookupReg]
  | some t =>
    have h1 : FallbackTypeface r = (t, r) := by
      unfold FallbackTypeface
      rw [h]
    rw [h1]
    exact h1

theorem FallbackTypeface_name_ne {r : Registry} (h : validReg r) :
    (FallbackTypeface r).1.Name ≠ [] := by
  unfold FallbackTypeface
  match hl : lookupReg r fallbackKey with
  | some t =>
    simp only [hl]
    exact h _ (lookupReg_mem hl)
  | none =>
    simp only [hl]
    decide

theorem FallbackTypeface_font_ne_null {r : Registry} (h : validReg r) :
    (FallbackTypeface r).1 ≠ NullFont := by
  intro heq
  exact FallbackTypeface_name_ne h (by rw [heq]; rfl)

theorem lookupReg_fallback_other {r : Registry} {k : GoString}
    (h : k ≠ fallbackKey) :
    lookupReg (FallbackTypeface r).2 k = lookupReg r k := by
  unfold FallbackTypeface
  match hl : lookupReg r fallbackKey with
  | some t => simp [hl]
  | none =>
    simp only [hl, lookupReg]
    rw [if_neg (fun heq => h heq.symm)]

/-! ### Step equations of the provider loop and of the search -/

theorem searchLoop_nil (ctx : Ctx) (desc : Descriptor) (name : GoString)
    (idx poll : Nat) (reg : Registry) :
    searchLoop ctx desc name [] idx poll reg =
      { font := (FallbackTypeface reg).1, err := some (.notFound name),
        reg := (FallbackTypeface reg).2, calls := [] } := rfl

theorem searchLoop_cons_cancel {ctx : Ctx} {poll : Nat} {e : CancelReason}
    (desc : Descriptor) (name : GoString) (r : Provider) (rest : List Provider)
    (idx : Nat) (reg : Registry) (h : ctx poll = some e) :
    searchLoop ctx desc name (r :: rest) idx poll reg =
      { font := NullFont, err := some e.toErr, reg := reg, calls := [] } := by
  unfold searchLoop
  rw [h]

theorem searchLoop_cons_ok {ctx : Ctx} {poll : Nat} {r : Provider}
    {desc : Descriptor} {f : ScalableFont}
    (name : GoString) (rest : List Provider) (idx : Nat) (reg : Registry)
    (h0 : ctx poll = none) (h1 : r desc = .ok f) :
    searchLoop ctx desc name (r :: rest) idx poll reg =
      { font := f, err := none, reg := StoreTypeface reg name f,
        calls := [idx] } := by
  unfold searchLoop
  rw [h0, h1]

theorem searchLoop_cons_err_cancel {ctx : Ctx} {poll : Nat} {r : Provider}
    {desc : Descriptor} {e : GoErr} {c : CancelReason}
    (name : GoString) (rest : List Provider) (idx : Nat) (reg : Registry)
    (h0 : ctx poll = none) (h1 : r desc = .error e)
    (h2 : ctx (poll + 1) = some c) :
    searchLoop ctx desc name (r :: rest) idx poll reg =
      { font := NullFont, err := some c.toErr, reg := reg, calls := [idx] } := by
  unfold searchLoop
  rw [h0, h1, h2]

theorem searchLoop_cons_err_next {ctx : Ctx} {poll : Nat} {r : Provider}
    {desc : Descriptor} {e : GoErr}
    (name : GoString) (rest : List Provider) (idx : Nat) (reg : Registry)
    (h0 : ctx poll = none) (h1 : r desc = .error e)
    (h2 : ctx (poll + 1) = none) :
    searchLoop ctx desc name (r :: rest) idx poll reg =
      { searchLoop ctx desc name rest (idx + 1) (poll + 2) reg with
        calls := idx :: (searchLoop ctx desc name rest (idx + 1) (poll + 2) reg).calls } := by
  conv_lhs => unfold searchLoop
  rw [h0, h1, h2]

theorem searchScalableFont_cancel {ctx : Ctx} {e : CancelReason}
    (desc : Descriptor) (rs : List Provider) (reg : Registry)
    (h : ctx 0 = some e) :
    searchScalableFont ctx desc rs reg =
      { font := NullFont, err := some e.toErr, reg := reg, calls := [] } := by
  unfold searchScalableFont
  rw [h]

theorem searchScalableFont_hit {ctx : Ctx} {desc : Descriptor} {reg : Registry}
    {t : ScalableFont} (rs : List Provider)
    (h : ctx 0 = none) (hhit : lookupReg reg (normOf desc) = some t) :
    searchScalableFont ctx desc rs reg =
      { font := t, err := none, reg := reg, calls := [] } := by
  simp only [normOf] at hhit
  have ht : Typeface reg (NormalizeFontname desc.Pattern desc.Style desc.Weight) =
      (t, none, reg) := by
    unfold Typeface
    rw [hhit]
  unfold searchScalableFont
  rw [h, ht]

theorem searchScalableFont_miss {ctx : Ctx} {desc : Descriptor} {reg : Registry}
    (rs : List Provider)
    (h : ctx 0 = none) (hmiss : lookupReg reg (normOf desc) = none) :
    searchScalableFont ctx desc rs reg =
      searchLoop ctx desc (normOf desc) rs 0 1 (FallbackTypeface reg).2 := by
  simp only [normOf] at hmiss ⊢
  have ht : Typeface reg (NormalizeFontname desc.Pattern desc.Style desc.Weight) =
      ((FallbackTypeface reg).1,
        some (.registryMiss (NormalizeFontname desc.Pattern desc.Style desc.Weight)),
        (FallbackTypeface reg).2) := by
    unfold Typeface
    rw [hmiss]
  unfold searchScalableFont
  rw [h, ht]

/-! ### Provider-loop lemmas -/

theorem range_map_shift (n idx : Nat) :
    idx :: (List.range n).map (· + (idx + 1)) = (List.range (n + 1)).map (· + idx) := by
  rw [List.range_succ_eq_map, List.map_cons, List.map_map]
  simp only [Nat.zero_add]
  refine congrArg (idx :: ·) (List.map_congr_left fun x _ => ?_)
  simp only [Function.comp_apply, Nat.succ_eq_add_one]
  omega

theorem searchLoop_all_fail (ctx : Ctx) (desc : Descriptor) (name : GoString)
    (hc : ∀ n, ctx n = none) :
    ∀ (rs : List Provider) (idx poll : Nat) (reg : Registry),
      (∀ p ∈ rs, ∃ e, p desc = .error e) →
      searchLoop ctx desc name rs idx poll reg =
        { font := (FallbackTypeface reg).1, err := some (.notFound name),
          reg := (FallbackTypeface reg).2,
          calls := (List.range rs.length).map (· + idx) } := by
  intro rs
  induction rs with
  | nil =>
    intro idx poll reg _
    simp [searchLoop_nil]
  | cons r rest ih =>
    intro idx poll reg hfail
    obtain ⟨e, he⟩ := hfail r (List.mem_cons_self _ _)
    have hrest : ∀ p ∈ rest, ∃ e, p desc = .error e :=
      fun p hp => hfail p (List.mem_cons_of_mem _ hp)
    rw [searchLoop_cons_err_next name rest idx reg (hc poll) he (hc (poll + 1)),
      ih (idx + 1) (poll + 2) reg hrest]
    simp only [List.length_cons, ← range_map_shift rest.length idx]

theorem searchLoop_notFound_font (ctx : Ctx) (desc : Descriptor)
    (name k : GoString) :
    ∀ (rs : List Provider) (idx poll : Nat) (reg : Registry),
      (searchLoop ctx desc name rs idx poll reg).err = some (.notFound k) →
      (searchLoop ctx desc name rs idx poll reg).font =
        (FallbackTypeface reg).1 := by
  intro rs
  induction rs with
  | nil => intro idx poll reg _; simp [searchLoop_nil]
  | cons r rest ih =>
    intro idx poll reg herr
    match h0 : ctx poll with
    | some e =>
      rw [searchLoop_cons_cancel desc name r rest idx reg h0] at herr
      cases e <;> simp [CancelReason.toErr] at herr
    | none =>
      match h1 : r desc with
      | .ok f =>
        rw [searchLoop_cons_ok name rest idx reg h0 h1] at herr
        simp at herr
      | .error e =>
        match h2 : ctx (poll + 1) with
        | some c =>
          rw [searchLoop_cons_err_cancel name rest idx reg h0 h1 h2] at herr
          cases c <;> simp [CancelReason.toErr] at herr
        | none =>
          rw [searchLoop_cons_err_next name rest idx reg h0 h1 h2] at herr ⊢
          exact ih (idx + 1) (poll + 2) reg herr

/-- C1: with no cancellation and all providers failing on a cache miss,
`searchScalableFont` returns the registry's fallback font paired with the
not-found error for the normalized key, and that font is not the Null Font;
moreover, in general, a result carrying a not-found error never carries the
Null Font (resolve.go:136-140).  The fallback load cannot fail (the default
font is embedded in the binary), so the fallback-failure branch is
unreachable and the result's error stays exactly the not-found error. -/
theorem searchScalableFont_all_fail (ctx : Ctx) (desc : Descriptor)
    (rs : List Provider) (reg : Registry)
    (hc : ∀ n, ctx n = none)
    (hfail : ∀ p ∈ rs, ∃ e, p desc = .error e)
    (hmiss : lookupReg reg (normOf desc) = none)
    (hv : validReg reg) :
    ((searchScalableFont ctx desc rs reg).err =
        some (.notFound (normOf desc)) ∧
      (searchScalableFont ctx desc rs reg).font = (FallbackTypeface reg).1 ∧
      (searchScalableFont ctx desc rs reg).font ≠ NullFont) ∧
    (∀ (ctx2 : Ctx) (desc2 : Descriptor) (rs2 : List Provider)
        (reg2 : Registry) (k : GoString), validReg reg2 →
      (searchScalableFont ctx2 desc2 rs2 reg2).err = some (.notFound k) →
      (searchScalableFont ctx2 desc2 rs2 reg2).font ≠ NullFont) := by
  constructor
  · rw [searchScalableFont_miss rs (hc 0) hmiss,
      searchLoop_all_fail ctx desc (normOf desc) hc rs 0 1
        (FallbackTypeface reg).2 hfail]
    refine ⟨rfl, ?_, ?_⟩
    · simp [FallbackTypeface_idem]
    · simp only [FallbackTypeface_idem]
      exact FallbackTypeface_font_ne_null hv
  · intro ctx2 desc2 rs2 reg2 k hv2 herr
    match h0 : ctx2 0 with
    | some e =>
      rw [searchScalableFont_cancel desc2 rs2 reg2 h0] at herr
      cases e <;> simp [CancelReason.toErr] at herr
    | none =>
      match hl : lookupReg reg2 (normOf desc2) with
      | some t =>
        rw [searchScalableFont_hit rs2 h0 hl] at herr
        simp at herr
      | none =>
        rw [searchScalableFont_miss rs2 h0 hl] at herr ⊢
        rw [searchLoop_notFound_font ctx2 desc2 (normOf desc2) k rs2 0 1 _ herr]
        simp only [FallbackTypeface_idem]
        exact FallbackTypeface_font_ne_null hv2

/-- Witness for C1: a single failing provider on an empty registry yields the
packaged fallback font together with the not-found error. -/
theorem searchScalableFont_all_fail_witness :
    (searchScalableFont ctxNone descArial [pFail] []).err =
      some (.notFound (normOf descArial)) ∧
    (searchScalableFont ctxNone descArial [pFail] []).font =
      (FallbackTypeface []).1 ∧
    (searchScalableFont ctxNone descArial [pFail] []).font ≠ NullFont := by
  have h := searchScalableFont_all_fail ctxNone descArial [pFail] []
    (fun _ => rfl)
    (by
      intro p hp
      rw [List.mem_singleton] at hp
      exact ⟨.providerFailure (gs "boom"), by rw [hp]; rfl⟩)
    rfl
    (by intro kf hkf; exact absurd hkf (List.not_mem_nil _))
  exact h.1

theorem searchLoop_first_success {ctx : Ctx} {desc : Descriptor}
    {p : Provider} {f : ScalableFont} (name : GoString)
    (hc : ∀ n, ctx n = none) (hp : p desc = .ok f) :
    ∀ (as : List Provider) (bs : List Provider) (idx poll : Nat) (reg : Registry),
      (∀ q ∈ as, ∃ e, q desc = .error e) →
      searchLoop ctx desc name (as ++ p :: bs) idx poll reg =
        { font := f, err := none, reg := StoreTypeface reg name f,
          calls := (List.range (as.length + 1)).map (· + idx) } := by
  intro as
  induction as with
  | nil =>
    intro bs idx poll reg _
    rw [List.nil_append, searchLoop_cons_ok name bs idx reg (hc poll) hp]
    simp [List.range_succ]
  | cons q rest ih =>
    intro bs idx poll reg hfail
    obtain ⟨e, he⟩ := hfail q (List.mem_cons_self _ _)
    have hrest : ∀ q2 ∈ rest, ∃ e, q2 desc = .error e :=
      fun q2 hq => hfail q2 (List.mem_cons_of_mem _ hq)
    rw [List.cons_append,
      searchLoop_cons_err_next name (rest ++ p :: bs) idx reg (hc poll) he
        (hc (poll + 1)),
      ih bs (idx + 1) (poll + 2) reg hrest]
    simp only [List.length_cons, ← range_map_shift (rest.length + 1) idx]

/-- Counterexample to C2 as stated: a provider that "succeeds" with the Null
Font has its result returned with a nil error, but nothing is stored in the
registry under the normalized key (`StoreTypeface` rejects it,
registry.go:47-50). -/
theorem searchScalableFont_success_not_stored_cex :
    (searchScalableFont ctxNone descArial [pNull] []).err = none ∧
    (searchScalableFont ctxNone descArial [pNull] []).font = NullFont ∧
    lookupReg (searchScalableFont ctxNone descArial [pNull] []).reg
      (normOf descArial) = none := by
  refine ⟨rfl, rfl, rfl⟩

/-- C2 (amended): on a cache miss with no cancellation, the providers are
invoked strictly in the order supplied; every provider before the first
success is invoked (an earlier failure does not abort the chain), no provider
after the first success is invoked, and the first success's font is returned
with a nil error.  The font is additionally stored in the registry under the
normalized key provided it has a nonempty name and path (otherwise
`StoreTypeface` drops it) and the key is not the reserved fallback key
(which the cache-miss lookup has already filled). -/
theorem searchScalableFont_first_success_spec (ctx : Ctx) (desc : Descriptor)
    (as bs : List Provider) (p : Provider) (reg : Registry) (f : ScalableFont)
    (hc : ∀ n, ctx n = none)
    (hfail : ∀ q ∈ as, ∃ e, q desc = .error e)
    (hp : p desc = .ok f)
    (hmiss : lookupReg reg (normOf desc) = none)
    (hkey : normOf desc ≠ fallbackKey)
    (hn : f.Name ≠ []) (hpa : f.Path ≠ []) :
    (searchScalableFont ctx desc (as ++ p :: bs) reg).font = f ∧
    (searchScalableFont ctx desc (as ++ p :: bs) reg).err = none ∧
    (searchScalableFont ctx desc (as ++ p :: bs) reg).calls =
      List.range (as.length + 1) ∧
    lookupReg (searchScalableFont ctx desc (as ++ p :: bs) reg).reg
      (normOf desc) = some f := by
  rw [searchScalableFont_miss (as ++ p :: bs) (hc 0) hmiss,
    searchLoop_first_success (normOf desc) hc hp as bs 0 1
      (FallbackTypeface reg).2 hfail]
  have hmiss1 : lookupReg (FallbackTypeface reg).2 (normOf desc) = none := by
    rw [lookupReg_fallback_other hkey]
    exact hmiss
  refine ⟨rfl, rfl, ?_, ?_⟩
  · simp
  · simp only [StoreTypeface]
    rw [if_neg (by simp [hn, hpa]), hmiss1]
    simp [lookupReg]

/-- Witness for C2 (amended): a failing provider, then a succeeding one, then
a never-reached one; the call list is exactly `[0, 1]` and the font is stored
and returned. -/
theorem searchScalableFont_first_success_spec_witness :
    (searchScalableFont ctxNone descArial [pFail, pOk, pNull] []).font = fontA ∧
    (searchScalableFont ctxNone descArial [pFail, pOk, pNull] []).err = none ∧
    (searchScalableFont ctxNone descArial [pFail, pOk, pNull] []).calls = [0, 1] ∧
    lookupReg (searchScalableFont ctxNone descArial [pFail, pOk, pNull] []).reg
      (normOf descArial) = some fontA := by
  have h := searchScalableFont_first_success_spec ctxNone descArial [pFail]
    [pNull] pOk [] fontA (fun _ => rfl)
    (by
      intro q hq
      rw [List.mem_singleton] at hq
      exact ⟨.providerFailure (gs "boom"), by rw [hq]; rfl⟩)
    rfl rfl (by decide) (by decide) (by decide)
  simp only [show [pFail] ++ pOk :: [pNull] = [pFail, pOk, pNull] from rfl] at h
  exact ⟨h.1, h.2.1, by rw [h.2.2.1]; rfl, h.2.2.2⟩

/-- Counterexample to C5 as stated: when the first resolution "succeeded via
some provider" but the provider's font was the Null Font, nothing was cached,
so the second resolution of the same key runs the provider chain again
(`calls = [0]` instead of no provider invocation). -/
theorem searchScalableFont_second_call_invokes_provider_cex :
    (searchScalableFont ctxNone descArial [pNull] []).err = none ∧
    (searchScalableFont ctxNone descArial [pNull]
        (searchScalableFont ctxNone descArial [pNull] []).reg).calls = [0] := by
  exact ⟨rfl, rfl⟩

/-- C5 (amended): resolving the same normalized key twice in sequence with no
cancellation, where the first resolution succeeded via some provider whose
font has a nonempty name and path and whose normalized key is not the
reserved fallback key, returns the same font both times; the second
resolution is a cache hit returning the stored font with a nil error, and it
invokes no provider (its call list is empty), for any provider list given to
the second call. -/
theorem searchScalableFont_idempotent (ctx1 ctx2 : Ctx) (desc : Descriptor)
    (as bs rs2 : List Provider) (p : Provider) (reg : Registry) (f : ScalableFont)
    (hc1 : ∀ n, ctx1 n = none) (hc2 : ∀ n, ctx2 n = none)
    (hfail : ∀ q ∈ as, ∃ e, q desc = .error e)
    (hp : p desc = .ok f)
    (hmiss : lookupReg reg (normOf desc) = none)
    (hkey : normOf desc ≠ fallbackKey)
    (hn : f.Name ≠ []) (hpa : f.Path ≠ []) :
    (searchScalableFont ctx1 desc (as ++ p :: bs) reg).font = f ∧
    searchScalableFont ctx2 desc rs2
        (searchScalableFont ctx1 desc (as ++ p :: bs) reg).reg =
      { font := f, err := none,
        reg := (searchScalableFont ctx1 desc (as ++ p :: bs) reg).reg,
        calls := [] } := by
  have h1 : searchScalableFont ctx1 desc (as ++ p :: bs) reg =
      { font := f, err := none,
        reg := StoreTypeface (FallbackTypeface reg).2 (normOf desc) f,
        calls := (List.range (as.length + 1)).map (· + 0) } := by
    rw [searchScalableFont_miss (as ++ p :: bs) (hc1 0) hmiss,
      searchLoop_first_success (normOf desc) hc1 hp as bs 0 1
        (FallbackTypeface reg).2 hfail]
  have hmiss1 : lookupReg (FallbackTypeface reg).2 (normOf desc) = none := by
    rw [lookupReg_fallback_other hkey]
    exact hmiss
  have hstored : lookupReg
      (StoreTypeface (FallbackTypeface reg).2 (normOf desc) f) (normOf desc) =
      some f := by
    simp only [StoreTypeface]
    rw [if_neg (by simp [hn, hpa]), hmiss1]
    simp [lookupReg]
  constructor
  · rw [h1]
  · rw [h1]
    exact searchScalableFont_hit rs2 (hc2 0) hstored

/-- Witness for C5 (amended): resolving `Arial` twice against a succeeding
provider returns `fontA` both times and the second call invokes nothing. -/
theorem searchScalableFont_idempotent_witness :
    (searchScalableFont ctxNone descArial [pOk] []).font = fontA ∧
    searchScalableFont ctxNone descArial [pOk]
        (searchScalableFont ctxNone descArial [pOk] []).reg =
      { font := fontA, err := none,
        reg := (searchScalableFont ctxNone descArial [pOk] []).reg,
        calls := [] } := by
  have h := searchScalableFont_idempotent ctxNone ctxNone descArial [] [] [pOk]
    pOk [] fontA (fun _ => rfl) (fun _ => rfl)
    (by intro q hq; exact absurd hq (List.not_mem_nil _))
    rfl rfl (by decide) (by decide) (by decide)
  simp only [show ([] : List Provider) ++ pOk :: [] = [pOk] from rfl] at h
  exact h

/-! ### Variant selection (C7) -/

theorem firstWith_cons_pos {s : FontStyle} {w : FontWeight} {v : GoString}
    {m : MatchConfidence} (rest : List GoString) (h : combinedConf s w v = m) :
    firstWith (v :: rest) s w m = v := by
  unfold firstWith
  rw [List.find?_cons_of_pos _ (by simp [h])]
  rfl

theorem firstWith_cons_neg {s : FontStyle} {w : FontWeight} {v : GoString}
    {m : MatchConfidence} (rest : List GoString) (h : combinedConf s w v ≠ m) :
    firstWith (v :: rest) s w m = firstWith rest s w m := by
  unfold firstWith
  rw [List.find?_cons_of_neg _ (by simp [h])]

theorem maxConf_cons (v : GoString) (rest : List GoString) (s : FontStyle)
    (w : FontWeight) :
    maxConf (v :: rest) s w = max (combinedConf s w v) (maxConf rest s w) := rfl

theorem selectVariantAux_spec (s : FontStyle) (w : FontWeight) :
    ∀ (vs : List GoString) (v0 : GoString) (c0 : MatchConfidence),
      selectVariantAux vs s w v0 c0 =
        ((if c0 < maxConf vs s w then firstWith vs s w (maxConf vs s w) else v0),
          max c0 (maxConf vs s w)) := by
  intro vs
  induction vs with
  | nil =>
    intro v0 c0
    simp [selectVariantAux, maxConf, firstWith]
  | cons v rest ih =>
    intro v0 c0
    by_cases h : c0 < combinedConf s w v
    · simp only [selectVariantAux, if_pos (show combinedConf s w v > c0 from h)]
      rw [ih v (combinedConf s w v), maxConf_cons]
      simp only [Prod.mk.injEq]
      have hc0 : c0 < max (combinedConf s w v) (maxConf rest s w) :=
        lt_of_lt_of_le h (le_max_left _ _)
      refine ⟨?_, (max_eq_right (le_of_lt hc0)).symm⟩
      rw [if_pos hc0]
      by_cases hcm : combinedConf s w v < maxConf rest s w
      · rw [if_pos hcm, max_eq_right (le_of_lt hcm),
          firstWith_cons_neg rest (ne_of_lt hcm)]
      · have hle : maxConf rest s w ≤ combinedConf s w v := Nat.le_of_not_lt hcm
        rw [if_neg hcm, max_eq_left hle, firstWith_cons_pos rest rfl]
    · have hcb : combinedConf s w v ≤ c0 := Nat.le_of_not_lt h
      simp only [selectVariantAux, if_neg (show ¬ combinedConf s w v > c0 from h)]
      rw [ih v0 c0, maxConf_cons]
      simp only [Prod.mk.injEq]
      refine ⟨?_, ?_⟩
      · by_cases hM : c0 < maxConf rest s w
        · have h1 : c0 < max (combinedConf s w v) (maxConf rest s w) :=
            lt_of_lt_of_le hM (le_max_right _ _)
          rw [if_pos hM, if_pos h1,
            max_eq_right (le_trans hcb (le_of_lt hM)),
            firstWith_cons_neg rest (ne_of_lt (lt_of_le_of_lt hcb hM))]
        · have h1 : ¬ c0 < max (combinedConf s w v) (maxConf rest s w) := by
            intro hx
            rcases lt_max_iff.mp hx with h3 | h3
            · exact h h3
            · exact hM h3
          rw [if_neg hM, if_neg h1]
      · have hassoc := max_assoc c0 (combinedConf s w v) (maxConf rest s w)
        rw [← hassoc, max_eq_left hcb]

/-- Counterexample to C7 as stated: the sole variant `bold` of a request for
an italic light font has combined confidence 0, and `selectVariant` does not
return it (it returns the empty variant): the strictly-highest-confidence
variant is not returned when that confidence is 0, because the accumulator
starts at 0 and only strict improvements are taken. -/
theorem selectVariant_zero_conf_cex :
    combinedConf FontStyle.Italic WeightLight (gs "bold") = 0 ∧
    selectVariant [gs "bold"] FontStyle.Italic WeightLight = ([], 0) ∧
    gs "bold" ≠ [] := by decide

/-- C7 (amended): `selectVariant` combines the style- and weight-confidence
of each label by integer-division averaging (rounding toward the lower
level), and returns as confidence the highest combined confidence of the
list; the returned variant is the first one attaining that maximum provided
the maximum is positive — when every variant's combined confidence is 0,
the empty variant is returned instead of the first-seen one. -/
theorem selectVariant_spec (vs : List GoString) (s : FontStyle) (w : FontWeight) :
    (selectVariant vs s w).2 = maxConf vs s w ∧
    (selectVariant vs s w).1 =
      (if 0 < maxConf vs s w then firstWith vs s w (maxConf vs s w) else []) := by
  unfold selectVariant
  rw [selectVariantAux_spec]
  exact ⟨Nat.max_eq_right (Nat.zero_le _), rfl⟩

/-! ### Confidence thresholds of the two matching paths (C6) -/

theorem cmVariants_inv (d : FontVariantsLocation) (s : FontStyle) (w : FontWeight) :
    ∀ (vs : List GoString), vs ⊆ d.Variants →
    ∀ (best : FontVariantsLocation × GoString × MatchConfidence),
      (0 < best.2.2 → best.2.1 ∈ best.1.Variants) →
      (0 < (cmVariants d vs s w best).2.2 →
        (cmVariants d vs s w best).2.1 ∈ (cmVariants d vs s w best).1.Variants) := by
  intro vs
  induction vs with
  | nil => intro _ best hbest; exact hbest
  | cons v rest ih =>
    intro hsub best hbest
    have hv : v ∈ d.Variants := hsub (List.mem_cons_self _ _)
    have hrest : rest ⊆ d.Variants := fun x hx => hsub (List.mem_cons_of_mem _ hx)
    by_cases h : combinedConf s w v > best.2.2
    · simp only [cmVariants, if_pos h]
      exact ih hrest (d, v, combinedConf s w v) (fun _ => hv)
    · simp only [cmVariants, if_neg h]
      exact ih hrest best hbest

theorem closestMatchAux_inv (pattern : GoString) (s : FontStyle) (w : FontWeight) :
    ∀ (ds : List FontVariantsLocation)
      (best : FontVariantsLocation × GoString × MatchConfidence),
      (0 < best.2.2 → best.2.1 ∈ best.1.Variants) →
      (0 < (closestMatchAux ds pattern s w best).2.2 →
        (closestMatchAux ds pattern s w best).2.1 ∈
          (closestMatchAux ds pattern s w best).1.Variants) := by
  intro ds
  induction ds with
  | nil => intro best hbest; exact hbest
  | cons d rest ih =>
    intro best hbest
    by_cases h : patternMatches pattern d.Family
    · simp only [closestMatchAux, if_pos h]
      exact ih _ (cmVariants_inv d s w d.Variants (List.Subset.refl _) best hbest)
    · simp only [closestMatchAux, if_neg h]
      exact ih best hbest

theorem ClosestMatch_inv (ds : List FontVariantsLocation) (p : GoString)
    (s : FontStyle) (w : FontWeight) :
    0 < (ClosestMatch ds p s w).2.2 →
    (ClosestMatch ds p s w).2.1 ∈ (ClosestMatch ds p s w).1.Variants := by
  unfold ClosestMatch
  exact closestMatchAux_inv p s w ds (emptyLocation, [], 0)
    (fun h => absurd h (lt_irrefl 0))

theorem matchGoogleFontInfo_ok {dir : List GoogleFontInfo} {p : GoString}
    {s : FontStyle} {w : FontWeight} {fis : List GoogleFontInfo}
    (h : matchGoogleFontInfo dir p s w = .ok fis) :
    ∃ fi ∈ dir, patternMatches p fi.Family = true ∧
      LowConfidence < (ClosestMatch [fi.toLoc] p s w).2.2 ∧ fis = [fi] := by
  unfold matchGoogleFontInfo at h
  cases hfind : dir.find? (fun fi =>
      patternMatches p fi.Family &&
        (ClosestMatch [fi.toLoc] p s w).2.2 > LowConfidence) with
  | none => rw [hfind] at h; simp at h
  | some fi =>
    rw [hfind] at h
    simp only [Except.ok.injEq] at h
    have hpred := List.find?_some hfind
    simp only [Bool.and_eq_true, decide_eq_true_eq] at hpred
    exact ⟨fi, List.mem_of_find?_eq_some hfind, hpred.1, hpred.2, h.symm⟩

theorem matchGoogleFontInfo_error {dir : List GoogleFontInfo} {p : GoString}
    {s : FontStyle} {w : FontWeight} {e : GoErr}
    (h : matchGoogleFontInfo dir p s w = .error e) : e = .noMatch := by
  unfold matchGoogleFontInfo at h
  cases hfind : dir.find? (fun fi =>
      patternMatches p fi.Family &&
        (ClosestMatch [fi.toLoc] p s w).2.2 > LowConfidence) with
  | none => rw [hfind] at h; simp only [Except.error.injEq] at h; exact h.symm
  | some fi => rw [hfind] at h; simp at h

theorem findGoogleFont_eq_of_match {dir : List GoogleFontInfo}
    {cache : GoogleFontInfo → GoString → Except GoErr (GoString × GoString)}
    {p : GoString} {s : FontStyle} {w : FontWeight} {fi : GoogleFontInfo}
    (hm : matchGoogleFontInfo dir p s w = .ok [fi]) :
    findGoogleFont dir cache p s w =
      (if (selectVariant fi.Variants s w).2 < LowConfidence then
        .error (.noSuitableVariant (selectVariant fi.Variants s w).2)
      else
        match cache fi (selectVariant fi.Variants s w).1 with
        | .error e => .error e
        | .ok cr => .ok { Name := cr.2, Style := s, Weight := w, Path := cr.2 }) := by
  unfold findGoogleFont
  rw [hm]

/-- Counterexample to C6 as stated: for a single fontconfig family `Foo` with
sole variant `italic` and a request for Normal/Normal, the winning confidence
is exactly `LowConfidence`, yet `findFontConfigFont` rejects the match and
returns the zero values — a winning confidence greater than or equal to
`LowConfidence` is not accepted (fc.go:136 requires strictly greater). -/
theorem fc_rejects_at_low_cex :
    (ClosestMatch [fcLocItalic] (gs "foo") FontStyle.Normal
        WeightNormal).2.2 = LowConfidence ∧
    findFontConfigFont [fcLocItalic] true (gs "foo") FontStyle.Normal
        WeightNormal = (emptyLocation, []) := by
  exact ⟨rfl, rfl⟩

/-- C6 (amended): the two matching paths do not share the claimed
accept-at-or-above-`LowConfidence` rule.  The fontconfig path accepts a match
exactly when the winning confidence is strictly greater than `LowConfidence`
(fc.go:136); the google path only returns fonts whose matched family passed a
strictly-greater-than-`LowConfidence` directory prefilter
(src/unnamed/part_001:178); only findGoogleFont's inner variant check is the
accept-at-or-above rule, rejecting exactly the confidences strictly below
`LowConfidence` (src/unnamed/part_001:118) — so the literal comparisons of
the two paths differ at exactly `LowConfidence`. -/
theorem confidence_threshold_rules :
    (∀ (ds : List FontVariantsLocation) (p : GoString) (s : FontStyle)
        (w : FontWeight),
      findFontConfigFont ds true p s w ≠ (emptyLocation, ([] : GoString)) ↔
        LowConfidence < (ClosestMatch ds p s w).2.2) ∧
    (∀ (dir : List GoogleFontInfo)
        (cache : GoogleFontInfo → GoString → Except GoErr (GoString × GoString))
        (p : GoString) (s : FontStyle) (w : FontWeight) (sf : ScalableFont),
      findGoogleFont dir cache p s w = .ok sf →
      ∃ fi ∈ dir, patternMatches p fi.Family = true ∧
        LowConfidence < (ClosestMatch [fi.toLoc] p s w).2.2) ∧
    (∀ (dir : List GoogleFontInfo)
        (cache : GoogleFontInfo → GoString → Except GoErr (GoString × GoString))
        (p : GoString) (s : FontStyle) (w : FontWeight) (c : MatchConfidence),
      (∀ fi v c2, cache fi v ≠ .error (.noSuitableVariant c2)) →
      findGoogleFont dir cache p s w = .error (.noSuitableVariant c) →
      c < LowConfidence) := by
  refine ⟨?_, ?_, ?_⟩
  · intro ds p s w
    unfold findFontConfigFont
    simp only [Bool.not_true, Bool.false_eq_true, if_false]
    constructor
    · intro hne
      by_cases hconf : (ClosestMatch ds p s w).2.2 > LowConfidence
      · exact hconf
      · exact absurd (if_neg hconf) (fun h => hne h)
    · intro hconf
      rw [if_pos hconf]
      intro heq
      simp only [Prod.mk.injEq] at heq
      have hmem := ClosestMatch_inv ds p s w
        (Nat.lt_trans (by decide) hconf)
      rw [heq.1, heq.2] at hmem
      exact absurd hmem (List.not_mem_nil _)
  · intro dir cache p s w sf hok
    cases hm : matchGoogleFontInfo dir p s w with
    | error e =>
      unfold findGoogleFont at hok
      rw [hm] at hok
      simp at hok
    | ok fis =>
      obtain ⟨fi, hmem, h1, h2, _⟩ := matchGoogleFontInfo_ok hm
      exact ⟨fi, hmem, h1, h2⟩
  · intro dir cache p s w c hcache hok
    cases hm : matchGoogleFontInfo dir p s w with
    | error e =>
      unfold findGoogleFont at hok
      rw [hm] at hok
      simp only [Except.error.injEq] at hok
      rw [matchGoogleFontInfo_error hm] at hok
      simp at hok
    | ok fis =>
      obtain ⟨fi, _, _, _, hfis⟩ := matchGoogleFontInfo_ok hm
      subst hfis
      rw [findGoogleFont_eq_of_match hm] at hok
      by_cases hlt : (selectVariant fi.Variants s w).2 < LowConfidence
      · rw [if_pos hlt] at hok
        simp only [Except.error.injEq, GoErr.noSuitableVariant.injEq] at hok
        rw [← hok]
        exact hlt
      · rw [if_neg hlt] at hok
        cases hc : cache fi (selectVariant fi.Variants s w).1 with
        | error e2 =>
          rw [hc] at hok
          simp only [Except.error.injEq] at hok
          exact absurd (hc.trans (by rw [hok])) (hcache fi _ c)
        | ok cr =>
          rw [hc] at hok
          simp at hok

/-- Witness for C6 (amended): a family with sole variant `regular` clears the
strict threshold and is accepted by the fontconfig path. -/
theorem confidence_threshold_rules_witness :
    findFontConfigFont [fcLocRegular] true (gs "foo") FontStyle.Normal
        WeightNormal ≠ (emptyLocation, ([] : GoString)) :=
  (confidence_threshold_rules.1 _ _ _ _).mpr (by decide)

/-! ### Case and whitespace insensitivity of the cache key (C8) -/

theorem lookup_mem :
    ∀ {ps : List (Char × Char)} {c l : Char}, ps.lookup c = some l → (c, l) ∈ ps := by
  intro ps
  induction ps with
  | nil => intro c l h; simp [List.lookup] at h
  | cons kv rest ih =>
    intro c l h
    obtain ⟨k, v⟩ := kv
    by_cases hck : c = k
    · subst hck
      have hb : (c == c) = true := by simp
      simp only [List.lookup, hb] at h
      injection h with h
      subst h
      exact List.mem_cons_self _ _
    · have hb : (c == k) = false := by simp [hck]
      simp only [List.lookup, hb] at h
      exact List.mem_cons_of_mem _ (ih h)

theorem asciiLower_eq_space_iff (c : Char) : asciiLower c = ' ' ↔ c = ' ' := by
  unfold asciiLower
  cases hl : upperLower.lookup c with
  | none => exact Iff.rfl
  | some l =>
    have hm := lookup_mem hl
    have hne := (by decide :
      ∀ x ∈ upperLower, ¬ x.2 = ' ' ∧ ¬ x.1 = ' ') (c, l) hm
    simp [hne.1, hne.2]

theorem asciiLower_eq_dot_iff (c : Char) : asciiLower c = '.' ↔ c = '.' := by
  unfold asciiLower
  cases hl : upperLower.lookup c with
  | none => exact Iff.rfl
  | some l =>
    have hm := lookup_mem hl
    have hne := (by decide :
      ∀ x ∈ upperLower, ¬ x.2 = '.' ∧ ¬ x.1 = '.') (c, l) hm
    simp [hne.1, hne.2]

theorem lowerEq_space {a b : Char} (h : asciiLower a = asciiLower b) :
    a = ' ' ↔ b = ' ' := by
  constructor
  · intro ha
    subst ha
    exact (asciiLower_eq_space_iff b).mp h.symm
  · intro hb
    subst hb
    exact (asciiLower_eq_space_iff a).mp h

theorem lowerEq_dot {a b : Char} (h : asciiLower a = asciiLower b) :
    a = '.' ↔ b = '.' := by
  constructor
  · intro ha
    subst ha
    exact (asciiLower_eq_dot_iff b).mp h.symm
  · intro hb
    subst hb
    exact (asciiLower_eq_dot_iff a).mp h

theorem map_asciiLower_replace :
    ∀ {a b : GoString}, a.map asciiLower = b.map asciiLower →
      (replaceSpaces a).map asciiLower = (replaceSpaces b).map asciiLower := by
  intro a
  induction a with
  | nil =>
    intro b h
    cases b with
    | nil => rfl
    | cons y b2 => simp at h
  | cons x a2 ih =>
    intro b h
    cases b with
    | nil => simp at h
    | cons y b2 =>
      simp only [List.map_cons, List.cons.injEq] at h
      obtain ⟨hx, ht⟩ := h
      simp only [replaceSpaces, List.map_cons, List.cons.injEq]
      refine ⟨?_, ih ht⟩
      by_cases hsp : x = ' '
      · have hy : y = ' ' := (lowerEq_space hx).mp hsp
        rw [if_pos hsp, if_pos hy]
      · have hy : ¬ y = ' ' := fun hy => hsp ((lowerEq_space hx).mpr hy)
        rw [if_neg hsp, if_neg hy]
        exact hx

theorem lastIdx_dot_eq :
    ∀ {a b : GoString}, a.map asciiLower = b.map asciiLower →
      lastIdx a '.' = lastIdx b '.' := by
  intro a
  induction a with
  | nil =>
    intro b h
    cases b with
    | nil => rfl
    | cons y b2 => simp at h
  | cons x a2 ih =>
    intro b h
    cases b with
    | nil => simp at h
    | cons y b2 =>
      simp only [List.map_cons, List.cons.injEq] at h
      obtain ⟨hx, ht⟩ := h
      simp only [lastIdx]
      rw [ih ht]
      by_cases hge : lastIdx b2 '.' ≥ 0
      · rw [if_pos hge, if_pos hge]
      · rw [if_neg hge, if_neg hge]
        by_cases hd : x = '.'
        · have hy : y = '.' := (lowerEq_dot hx).mp hd
          rw [if_pos hd, if_pos hy]
        · have hy : ¬ y = '.' := fun hy => hd ((lowerEq_dot hx).mpr hy)
          rw [if_neg hd, if_neg hy]

/-- C8: two patterns that agree character-wise up to ASCII letter casing
after trimming their leading and trailing whitespace normalize to the same
cache key, for equal style and weight (registry.go:124-142). -/
theorem NormalizeFontname_case_ws (p q : GoString) (s : FontStyle)
    (w : FontWeight) (h : lowerEq (trimSpace p) (trimSpace q)) :
    NormalizeFontname p s w = NormalizeFontname q s w := by
  unfold lowerEq at h
  have h2 : (replaceSpaces (trimSpace p)).map asciiLower =
      (replaceSpaces (trimSpace q)).map asciiLower :=
    map_asciiLower_replace h
  have hdot : lastIdx (replaceSpaces (trimSpace p)) '.' =
      lastIdx (replaceSpaces (trimSpace q)) '.' :=
    lastIdx_dot_eq h2
  have hcore : toLowerStr
      (if lastIdx (replaceSpaces (trimSpace p)) '.' > 0 then
        (replaceSpaces (trimSpace p)).take
          (lastIdx (replaceSpaces (trimSpace p)) '.').toNat
      else replaceSpaces (trimSpace p)) =
      toLowerStr
      (if lastIdx (replaceSpaces (trimSpace q)) '.' > 0 then
        (replaceSpaces (trimSpace q)).take
          (lastIdx (replaceSpaces (trimSpace q)) '.').toNat
      else replaceSpaces (trimSpace q)) := by
    rw [hdot]
    by_cases hgt : lastIdx (replaceSpaces (trimSpace q)) '.' > 0
    · rw [if_pos hgt, if_pos hgt]
      unfold toLowerStr
      rw [List.map_take, List.map_take, h2]
    · rw [if_neg hgt, if_neg hgt]
      exact h2
  simp only [NormalizeFontname]
  rw [hcore]

/-- Witness for C8: `Arial` and `  arial  ` with Normal style and weight
yield the same cache key. -/
theorem NormalizeFontname_case_ws_witness :
    lowerEq (trimSpace (gs "Arial")) (trimSpace (gs "  arial  ")) ∧
    NormalizeFontname (gs "Arial") FontStyle.Normal WeightNormal =
      NormalizeFontname (gs "  arial  ") FontStyle.Normal WeightNormal :=
  ⟨by decide, NormalizeFontname_case_ws (gs "Arial") (gs "  arial  ")
    FontStyle.Normal WeightNormal (by decide)⟩

/-! ### Trailing-extension behaviour of the cache key (C9) -/

theorem dropWhile_eq_self_of {l : GoString}
    (h : ∀ c ∈ l, isSpaceChar c = false) :
    l.dropWhile isSpaceChar = l := by
  cases l with
  | nil => rfl
  | cons x rest =>
    rw [List.dropWhile_cons]
    rw [h x (List.mem_cons_self _ _)]
    rfl

theorem trimSpace_eq_self {l : GoString}
    (h : ∀ c ∈ l, isSpaceChar c = false) : trimSpace l = l := by
  unfold trimSpace
  rw [dropWhile_eq_self_of h,
    dropWhile_eq_self_of (fun c hc => h c (List.mem_reverse.mp hc)),
    List.reverse_reverse]

theorem replaceSpaces_eq_self {l : GoString}
    (h : ∀ c ∈ l, isSpaceChar c = false) : replaceSpaces l = l := by
  unfold replaceSpaces
  have hpt : ∀ c ∈ l, (if c = ' ' then '_' else c) = id c := by
    intro c hc
    rw [if_neg]
    · rfl
    · intro he
      subst he
      have := h ' ' hc
      simp [isSpaceChar] at this
  rw [List.map_congr_left hpt, List.map_id]

theorem lastIdx_eq_neg_one {l : GoString} (h : '.' ∉ l) :
    lastIdx l '.' = -1 := by
  induction l with
  | nil => rfl
  | cons x rest ih =>
    simp only [List.mem_cons, not_or] at h
    simp only [lastIdx]
    rw [ih h.2, if_neg (by decide : ¬((-1 : Int) ≥ 0)),
      if_neg (fun he => h.1 he.symm)]

theorem lastIdx_append_dot (base rest2 : GoString) (hbd : '.' ∉ base)
    (hrd : '.' ∉ rest2) :
    lastIdx (base ++ '.' :: rest2) '.' = (base.length : Int) := by
  induction base with
  | nil =>
    simp only [List.nil_append, lastIdx]
    rw [lastIdx_eq_neg_one hrd, if_neg (by decide : ¬((-1 : Int) ≥ 0))]
    simp
  | cons x b ih =>
    simp only [List.mem_cons, not_or] at hbd
    simp only [List.cons_append, lastIdx, List.append_eq]
    rw [ih hbd.2, if_pos (by positivity : (b.length : Int) ≥ 0)]
    simp only [List.length_cons]
    push_cast
    ring

/-- Counterexample to C9 as stated: `Mrs.Eaves.ttf` and `Mrs.Eaves` differ
only by the trailing filename extension `.ttf`, yet they normalize to the
different cache keys `mrs.eaves` and `mrs` — the last-dot cut also fires on a
dot inside the base name, so extension-insensitivity fails for base names
containing dots. -/
theorem NormalizeFontname_ext_cex :
    NormalizeFontname (gs "Mrs.Eaves.ttf") FontStyle.Normal WeightNormal =
      gs "mrs.eaves" ∧
    NormalizeFontname (gs "Mrs.Eaves") FontStyle.Normal WeightNormal =
      gs "mrs" ∧
    gs "mrs.eaves" ≠ gs "mrs" := by decide

/-- C9 (amended): for a nonempty base pattern free of whitespace and dots and
an extension `.rest` free of whitespace and further dots, `NormalizeFontname`
drops everything from the dot onward, so the pattern with the extension
normalizes to the same cache key as the bare base pattern (in particular
`Arial.ttf` and `Arial` are cache-equivalent); the dot position is measured
in the trimmed, space-replaced string, and bases containing dots themselves
are excluded (see the counterexample). -/
theorem NormalizeFontname_ext_cut (base rest2 : GoString) (s : FontStyle)
    (w : FontWeight)
    (hb : base ≠ [])
    (hbs : ∀ c ∈ base, isSpaceChar c = false)
    (hbd : '.' ∉ base)
    (hrs : ∀ c ∈ rest2, isSpaceChar c = false)
    (hrd : '.' ∉ rest2) :
    NormalizeFontname (base ++ '.' :: rest2) s w =
      NormalizeFontname base s w := by
  have hall : ∀ c ∈ base ++ '.' :: rest2, isSpaceChar c = false := by
    intro c hc
    rcases List.mem_append.mp hc with h | h
    · exact hbs c h
    · rcases List.mem_cons.mp h with h | h
      · subst h; rfl
      · exact hrs c h
  simp only [NormalizeFontname]
  rw [trimSpace_eq_self hall, trimSpace_eq_self hbs,
    replaceSpaces_eq_self hall, replaceSpaces_eq_self hbs,
    lastIdx_append_dot base rest2 hbd hrd, lastIdx_eq_neg_one hbd]
  have hpos : (base.length : Int) > 0 := by
    have h0 : 0 < base.length := List.length_pos.mpr hb
    exact_mod_cast h0
  rw [if_pos hpos, if_neg (by decide : ¬((-1 : Int) > 0)),
    Int.toNat_natCast, List.take_left]

/-- Witness for C9 (amended): `Arial.ttf` and `Arial` normalize to the same
cache key. -/
theorem NormalizeFontname_ext_cut_witness :
    NormalizeFontname (gs "Arial.ttf") FontStyle.Normal WeightNormal =
      NormalizeFontname (gs "Arial") FontStyle.Normal WeightNormal := by
  have h : gs "Arial.ttf" = gs "Arial" ++ '.' :: gs "ttf" := rfl
  rw [h]
  exact NormalizeFontname_ext_cut (gs "Arial") (gs "ttf") FontStyle.Normal
    WeightNormal (by decide) (by decide) (by decide) (by decide) (by decide)

/-! ### Packaged fallback provider (C10) -/

theorem fallbackScan_all_dir (p : GoString) (s : FontStyle) (w : FontWeight) :
    ∀ (fonts : List DirEntry), (∀ e ∈ fonts, e.isDir = true) →
      ∀ acc, fallbackScan fonts p s w acc = acc := by
  intro fonts
  induction fonts with
  | nil => intro _ acc; rfl
  | cons f rest ih =>
    intro h acc
    have hf := h f (List.mem_cons_self _ _)
    simp only [fallbackScan, hf, if_true]
    exact ih (fun e he => h e (List.mem_cons_of_mem _ he)) acc

theorem fallbackScan_no_match (p : GoString) (s : FontStyle) (w : FontWeight) :
    ∀ (fonts : List DirEntry),
      (∀ e ∈ fonts, e.isDir = false → Matches e.name p s w = false) →
      ∀ acc, fallbackScan fonts p s w acc =
        ((lastFile fonts).map DirEntry.name).getD acc := by
  intro fonts
  induction fonts with
  | nil => intro _ acc; rfl
  | cons f rest ih =>
    intro h acc
    have hrest : ∀ e ∈ rest, e.isDir = false → Matches e.name p s w = false :=
      fun e he => h e (List.mem_cons_of_mem _ he)
    by_cases hd : f.isDir = true
    · simp only [fallbackScan, hd, if_true, lastFile]
      exact ih hrest acc
    · have hd2 : f.isDir = false := by revert hd; cases f.isDir <;> simp
      have hm : Matches f.name p s w = false := h f (List.mem_cons_self _ _) hd2
      simp only [fallbackScan, hd2, Bool.false_eq_true, if_false, hm, lastFile]
      rw [ih hrest f.name]
      cases hr : lastFile rest with
      | some e => simp [hr]
      | none => simp [hr]

theorem fallbackScan_ne_nil (p : GoString) (s : FontStyle) (w : FontWeight) :
    ∀ (fonts : List DirEntry), (∀ e ∈ fonts, e.name ≠ []) →
      ∀ acc, (acc ≠ [] ∨ ∃ e ∈ fonts, e.isDir = false) →
      fallbackScan fonts p s w acc ≠ [] := by
  intro fonts
  induction fonts with
  | nil =>
    intro _ acc hdisj
    rcases hdisj with h | h
    · exact h
    · obtain ⟨e, he, _⟩ := h
      exact absurd he (List.not_mem_nil _)
  | cons f rest ih =>
    intro hn acc hdisj
    have hnrest : ∀ e ∈ rest, e.name ≠ [] :=
      fun e he => hn e (List.mem_cons_of_mem _ he)
    by_cases hd : f.isDir = true
    · simp only [fallbackScan, hd, if_true]
      refine ih hnrest acc ?_
      rcases hdisj with h | h
      · exact Or.inl h
      · obtain ⟨e, he, hed⟩ := h
        rcases List.mem_cons.mp he with he2 | he2
        · subst he2; rw [hd] at hed; simp at hed
        · exact Or.inr ⟨e, he2, hed⟩
    · have hd2 : f.isDir = false := by revert hd; cases f.isDir <;> simp
      by_cases hm : Matches f.name p s w = true
      · simp only [fallbackScan, hd2, Bool.false_eq_true, if_false, hm, if_true]
        exact hn f (List.mem_cons_self _ _)
      · have hm2 : Matches f.name p s w = false := by
          revert hm; cases Matches f.name p s w <;> simp
        simp only [fallbackScan, hd2, Bool.false_eq_true, if_false, hm2]
        exact ih hnrest f.name (Or.inl (hn f (List.mem_cons_self _ _)))

theorem lastFile_mem :
    ∀ {fonts : List DirEntry} {e : DirEntry}, lastFile fonts = some e →
      e ∈ fonts ∧ e.isDir = false := by
  intro fonts
  induction fonts with
  | nil => intro e h; simp [lastFile] at h
  | cons f rest ih =>
    intro e h
    by_cases hd : f.isDir = true
    · simp only [lastFile, hd, if_true] at h
      obtain ⟨hmem, hdir⟩ := ih h
      exact ⟨List.mem_cons_of_mem _ hmem, hdir⟩
    · have hd2 : f.isDir = false := by revert hd; cases f.isDir <;> simp
      simp only [lastFile, hd2, Bool.false_eq_true, if_false] at h
      cases hr : lastFile rest with
      | some e2 =>
        rw [hr] at h
        injection h with h
        subst h
        obtain ⟨hmem, hdir⟩ := ih hr
        exact ⟨List.mem_cons_of_mem _ hmem, hdir⟩
      | none =>
        rw [hr] at h
        injection h with h
        subst h
        exact ⟨List.mem_cons_self _ _, hd2⟩

/-- C10: `FindFallbackFont` fails only when the packaged directory listing
holds no plain file at all; whenever some plain file exists it succeeds, and
when no packaged filename matches the pattern it returns the last-listed
packaged file with the requested style and weight stamped on it
(fallback.go:47-72). -/
theorem FindFallbackFont_spec (fonts : List DirEntry) (p : GoString)
    (s : FontStyle) (w : FontWeight)
    (hn : ∀ e ∈ fonts, e.name ≠ []) :
    ((∀ e ∈ fonts, e.isDir = true) →
      FindFallbackFont fonts p s w = .error (.plain (gs "font not found"))) ∧
    ((∃ e ∈ fonts, e.isDir = false) →
      ∃ sf, FindFallbackFont fonts p s w = .ok sf) ∧
    (∀ e0, lastFile fonts = some e0 →
      (∀ e ∈ fonts, e.isDir = false → Matches e.name p s w = false) →
      FindFallbackFont fonts p s w =
        .ok { Name := e0.name, Style := s, Weight := w,
              Path := gs "packaged/" ++ e0.name }) := by
  refine ⟨?_, ?_, ?_⟩
  · intro hall
    unfold FindFallbackFont
    rw [fallbackScan_all_dir p s w fonts hall []]
    rfl
  · intro hex
    unfold FindFallbackFont
    rw [if_neg (fallbackScan_ne_nil p s w fonts hn [] (Or.inr hex))]
    exact ⟨_, rfl⟩
  · intro e0 he0 hnm
    unfold FindFallbackFont
    rw [fallbackScan_no_match p s w fonts hnm [], he0]
    have hname := hn e0 (lastFile_mem he0).1
    simp [hname]

/-- Witness for C10: with two packaged files and a pattern matching neither,
the last-listed file `Go-Regular.otf` is returned with the requested style
and weight. -/
theorem FindFallbackFont_spec_witness :
    FindFallbackFont [dirGoBold, dirGoRegular] (gs "zzz") FontStyle.Normal
      WeightNormal =
    .ok { Name := gs "Go-Regular.otf", Style := FontStyle.Normal,
          Weight := WeightNormal, Path := gs "packaged/Go-Regular.otf" } := by
  have h := (FindFallbackFont_spec [dirGoBold, dirGoRegular] (gs "zzz")
    FontStyle.Normal WeightNormal (by decide)).2.2 dirGoRegular rfl (by decide)
  exact h

end Fontfind
